import Mathlib

/-!
Verification of the nous page-storage core against its specification.

The development shallowly embeds the Python storage layer:
  * `nous_ai/page_storage.py` — content hashing (`content_hash`), the block
    diff engine (`diff_blocks`), the oplog writer/reader (`append_oplog`,
    `read_last_hash`, `read_oplog`) and page CRUD (`create_page`,
    `update_page`, `NousPageStorage.list_pages`);
  * `nous_mcp/storage.py` — name resolution (`resolve_name`), search
    (`search_pages`) and listing (`NousStorage.list_pages`).

JSON values are modelled by the inductive type `Json`; Python dicts become
association lists in insertion order (Python dicts preserve insertion
order, and `json.dumps` without `sort_keys` serialises keys in that
order).  Numbers are modelled as integers: every numeric field of the data
model (epoch-millis timestamps, block counts, positions) is integral.
Machine-level details that the claims do not touch (file I/O, timestamps
produced by the clock) are passed in as explicit parameters.
-/

/-- JSON value, as produced by Python `json.loads` / consumed by
`json.dumps`.  Objects are association lists in insertion order. -/
inductive Json where
  | null
  | bool (b : Bool)
  | num (n : Int)
  | str (s : String)
  | arr (xs : List Json)
  | obj (kvs : List (String × Json))

/-- First binding of a key in an object's association list — Python dict
lookup (`d.get(k)`); Python dicts cannot hold a duplicate key, so on
well-formed values the first binding is the only one. -/
def objGet (j : Json) (key : String) : Option Json :=
  match j with
  | .obj kvs => lookupKey key kvs
  | _ => none
where
  lookupKey (key : String) : List (String × Json) → Option Json
    | [] => none
    | (k, v) :: rest => if k = key then some v else lookupKey key rest

mutual
/-- Python `==` on JSON values: dict comparison ignores key order — two
dicts are equal when they have the same number of keys and every key of
the first maps to an equal value in the second. -/
def pyEq : Json → Json → Bool
  | .null, .null => true
  | .bool a, .bool b => a == b
  | .num a, .num b => a == b
  | .str a, .str b => a == b
  | .arr a, .arr b => pyEqList a b
  | .obj a, .obj b => a.length == b.length && pyEqObj a b
  | _, _ => false
termination_by a b => sizeOf a + sizeOf b
decreasing_by all_goals (simp_wf; try omega)

/-- Elementwise Python `==` on JSON arrays. -/
def pyEqList : List Json → List Json → Bool
  | [], [] => true
  | x :: xs, y :: ys => pyEq x y && pyEqList xs ys
  | _, _ => false
termination_by a b => sizeOf a + sizeOf b
decreasing_by all_goals (simp_wf; try omega)

/-- Every binding of the first dict is matched by an equal binding in the
second. -/
def pyEqObj : List (String × Json) → List (String × Json) → Bool
  | [], _ => true
  | (k, v) :: rest, b => pyEqLookup k v b && pyEqObj rest b
termination_by a b => sizeOf a + sizeOf b
decreasing_by all_goals (simp_wf; try omega)

/-- Looks up `k` in the association list and compares the value found
with `v` (Python `b[k] == v`, `False` when the key is absent). -/
def pyEqLookup : String → Json → List (String × Json) → Bool
  | _, _, [] => false
  | k, v, (k2, v2) :: rest => if k = k2 then pyEq v v2 else pyEqLookup k v rest
termination_by _ v b => sizeOf v + sizeOf b
decreasing_by all_goals (simp_wf; try omega)
end

mutual
/-- Well-formedness of a JSON value as the image of a Python object: no
object carries a duplicate key (Python dicts cannot). -/
def JsonWF : Json → Bool
  | .null | .bool _ | .num _ | .str _ => true
  | .arr xs => JsonWFList xs
  | .obj kvs => decide (kvs.map Prod.fst).Nodup && JsonWFObj kvs
termination_by j => sizeOf j
decreasing_by all_goals (simp_wf; try omega)

/-- All elements well-formed. -/
def JsonWFList : List Json → Bool
  | [] => true
  | x :: xs => JsonWF x && JsonWFList xs
termination_by l => sizeOf l
decreasing_by all_goals (simp_wf; try omega)

/-- All values well-formed. -/
def JsonWFObj : List (String × Json) → Bool
  | [] => true
  | (_, v) :: rest => JsonWF v && JsonWFObj rest
termination_by l => sizeOf l
decreasing_by all_goals (simp_wf; try omega)
end

/-- Escape of one character inside a JSON string, as Python
`json.dumps(..., ensure_ascii=False)` performs it: only `"`, `\` and the
C0 control characters are escaped, everything else passes through. -/
def escapeChar (c : Char) : List Char :=
  if c = '\\' then ['\\', '\\']
  else if c = '"' then ['\\', '"']
  else if c = '\x08' then ['\\', 'b']
  else if c = '\x0c' then ['\\', 'f']
  else if c = '\n' then ['\\', 'n']
  else if c = '\r' then ['\\', 'r']
  else if c = '\t' then ['\\', 't']
  else if c.toNat < 32 then
    ['\\', 'u', '0', '0', hexDigit (c.toNat / 16), hexDigit (c.toNat % 16)]
  else [c]
where
  /-- Lowercase hexadecimal digit. -/
  hexDigit (n : Nat) : Char :=
    if n < 10 then Char.ofNat (48 + n) else Char.ofNat (87 + n)

/-- JSON string literal: quotes around the escaped characters. -/
def dumpString (s : String) : List Char :=
  '"' :: (s.toList.foldr (fun c acc => escapeChar c ++ acc) ['"'])

mutual
/-- Python `json.dumps(v, separators=(",", ":"), ensure_ascii=False)`:
compact canonical-free serialisation — object keys appear in insertion
order (no `sort_keys`), no incidental whitespace, no trailing newline. -/
def dumps : Json → List Char
  | .num n => (toString n).toList
  | .str s => dumpString s
  | .arr xs => '[' :: dumpsList xs ++ [']']
  | .obj kvs => '\x7b' :: dumpsObj kvs ++ ['\x7d']
  | .null => "null".toList
  | .bool true => "true".toList
  | .bool false => "false".toList
termination_by j => sizeOf j
decreasing_by all_goals (simp_wf; try omega)

/-- Array elements joined by `,`. -/
def dumpsList : List Json → List Char
  | [] => []
  | [x] => dumps x
  | x :: y :: rest => dumps x ++ ',' :: dumpsList (y :: rest)
termination_by l => sizeOf l
decreasing_by all_goals (simp_wf; try omega)

/-- Object entries `"key":value` joined by `,`, keys in insertion order. -/
def dumpsObj : List (String × Json) → List Char
  | [] => []
  | [(k, v)] => dumpString k ++ ':' :: dumps v
  | (k, v) :: e :: rest => dumpString k ++ ':' :: dumps v ++ ',' :: dumpsObj (e :: rest)
termination_by l => sizeOf l
decreasing_by all_goals (simp_wf; try omega)
end

/-- UTF-8 encoding of one Unicode scalar value (Python `str.encode("utf-8")`
per character). -/
def utf8Char (c : Char) : List Nat :=
  let n := c.toNat
  if n < 0x80 then [n]
  else if n < 0x800 then [0xc0 ||| (n >>> 6), 0x80 ||| (n &&& 0x3f)]
  else if n < 0x10000 then
    [0xe0 ||| (n >>> 12), 0x80 ||| ((n >>> 6) &&& 0x3f), 0x80 ||| (n &&& 0x3f)]
  else
    [0xf0 ||| (n >>> 18), 0x80 ||| ((n >>> 12) &&& 0x3f),
     0x80 ||| ((n >>> 6) &&& 0x3f), 0x80 ||| (n &&& 0x3f)]

/-- UTF-8 encoding of a character sequence, as a byte list. -/
def utf8Encode (s : List Char) : List Nat :=
  s.foldr (fun c acc => utf8Char c ++ acc) []

/-! SHA-256 (FIPS 180-4), over byte lists, with 32-bit words as `Nat`
reduced mod `2^32`.  This is the `hashlib.sha256` used by
`_content_hash`. -/

/-- Reduction to a 32-bit word. -/
def m32 (n : Nat) : Nat := n % 4294967296

/-- Right rotation of a 32-bit word. -/
def rotr (n x : Nat) : Nat := m32 ((x >>> n) ||| (x <<< (32 - n)))

/-- FIPS 180-4 Σ₀. -/
def bigSigma0 (x : Nat) : Nat := rotr 2 x ^^^ rotr 13 x ^^^ rotr 22 x

/-- FIPS 180-4 Σ₁. -/
def bigSigma1 (x : Nat) : Nat := rotr 6 x ^^^ rotr 11 x ^^^ rotr 25 x

/-- FIPS 180-4 σ₀. -/
def smallSigma0 (x : Nat) : Nat := rotr 7 x ^^^ rotr 18 x ^^^ (x >>> 3)

/-- FIPS 180-4 σ₁. -/
def smallSigma1 (x : Nat) : Nat := rotr 17 x ^^^ rotr 19 x ^^^ (x >>> 10)

/-- SHA-256 round constants (FIPS 180-4 §4.2.2, in decimal). -/
def sha256K : List Nat :=
  [1116352408, 1899447441, 3049323471, 3921009573, 961987163, 1508970993,
   2453635748, 2870763221, 3624381080, 310598401, 607225278, 1426881987,
   1925078388, 2162078206, 2614888103, 3248222580, 3835390401, 4022224774,
   264347078, 604807628, 770255983, 1249150122, 1555081692, 1996064986,
   2554220882, 2821834349, 2952996808, 3210313671, 3336571891, 3584528711,
   113926993, 338241895, 666307205, 773529912, 1294757372, 1396182291,
   1695183700, 1986661051, 2177026350, 2456956037, 2730485921, 2820302411,
   3259730800, 3345764771, 3516065817, 3600352804, 4094571909, 275423344,
   430227734, 506948616, 659060556, 883997877, 958139571, 1322822218,
   1537002063, 1747873779, 1955562222, 2024104815, 2227730452, 2361852424,
   2428436474, 2756734187, 3204031479, 3329325298]

/-- SHA-256 initial hash value (FIPS 180-4 §5.3.3, in decimal). -/
def sha256Init : List Nat :=
  [1779033703, 3144134277, 1013904242, 2773480762,
   1359893119, 2600822924, 528734635, 1541459225]

/-- Message padding: `0x80`, zeros to 56 mod 64, 8-byte big-endian bit
length. -/
def sha256Pad (msg : List Nat) : List Nat :=
  let len := msg.length
  let zeros := (64 - ((len + 9) % 64)) % 64
  let bitLen := len * 8
  msg ++ [0x80] ++ List.replicate zeros 0 ++
    [bitLen / 2 ^ 56 % 256, bitLen / 2 ^ 48 % 256, bitLen / 2 ^ 40 % 256, bitLen / 2 ^ 32 % 256,
     bitLen / 2 ^ 24 % 256, bitLen / 2 ^ 16 % 256, bitLen / 2 ^ 8 % 256, bitLen % 256]

/-- Split a padded message into 64-byte blocks (fuel bounds the recursion;
callers pass enough fuel to consume the whole list). -/
def chunks64 : Nat → List Nat → List (List Nat)
  | 0, _ => []
  | _, [] => []
  | fuel + 1, xs => xs.take 64 :: chunks64 fuel (xs.drop 64)

/-- Big-endian 32-bit words from bytes. -/
def wordsOfBytes : List Nat → List Nat
  | b0 :: b1 :: b2 :: b3 :: rest =>
    (b0 * 2 ^ 24 + b1 * 2 ^ 16 + b2 * 2 ^ 8 + b3) :: wordsOfBytes rest
  | _ => []

/-- Message-schedule extension: appends `n` further words `W[t]`. -/
def scheduleExtend : Nat → List Nat → List Nat
  | 0, w => w
  | n + 1, w =>
    let t := w.length
    let wt := m32 (smallSigma1 (w.getD (t - 2) 0) + w.getD (t - 7) 0 +
      smallSigma0 (w.getD (t - 15) 0) + w.getD (t - 16) 0)
    scheduleExtend n (w ++ [wt])

/-- One compression round on the state `[a,b,c,d,e,f,g,h]`. -/
def sha256Round (st : List Nat) (kw : Nat × Nat) : List Nat :=
  match st with
  | [a, b, c, d, e, f, g, h] =>
    let ch := (e &&& f) ^^^ ((e ^^^ 0xffffffff) &&& g)
    let maj := (a &&& b) ^^^ (a &&& c) ^^^ (b &&& c)
    let t1 := m32 (h + bigSigma1 e + ch + kw.1 + kw.2)
    let t2 := m32 (bigSigma0 a + maj)
    [m32 (t1 + t2), a, b, c, m32 (d + t1), e, f, g]
  | st => st

/-- Compression of one 64-byte block into the running hash. -/
def sha256Block (h : List Nat) (block : List Nat) : List Nat :=
  let w := scheduleExtend 48 (wordsOfBytes block)
  let st := (sha256K.zip w).foldl sha256Round h
  (h.zip st).map (fun p => m32 (p.1 + p.2))

/-- One 32-bit word as eight lowercase hex digits. -/
def wordToHex (w : Nat) : List Char :=
  [escapeChar.hexDigit (w / 2 ^ 28 % 16), escapeChar.hexDigit (w / 2 ^ 24 % 16),
   escapeChar.hexDigit (w / 2 ^ 20 % 16), escapeChar.hexDigit (w / 2 ^ 16 % 16),
   escapeChar.hexDigit (w / 2 ^ 12 % 16), escapeChar.hexDigit (w / 2 ^ 8 % 16),
   escapeChar.hexDigit (w / 2 ^ 4 % 16), escapeChar.hexDigit (w % 16)]

/-- SHA-256 digest of a byte list as a lowercase hex string
(`hashlib.sha256(raw).hexdigest()`). -/
def sha256Hex (msg : List Nat) : String :=
  let padded := sha256Pad msg
  let blocks := chunks64 (padded.length / 64 + 1) padded
  let h := blocks.foldl sha256Block sha256Init
  String.mk (h.foldr (fun w acc => wordToHex w ++ acc) [])

/-- Embedding of `_content_hash` (page_storage.py:78-83): serialise the
content dict with `json.dumps(content, separators=(",", ":"),
ensure_ascii=False)`, UTF-8 encode, SHA-256, and prepend `"sha256:"`. -/
def content_hash (content : Json) : String :=
  "sha256:" ++ sha256Hex (utf8Encode (dumps content))

example : sha256Hex (utf8Encode "abc".toList) =
    "ba7816bf8f01cfea414140de5dae2223b00361a396177a9cb410ff61f20015ad" := by decide

/-! Block model and the block diff engine (`_diff_blocks`,
page_storage.py:86-133).  A block dict is represented by the three fields
the storage layer reads: `b["id"]` (a string, present on every block the
writer handles), `b.get("type")` and `b.get("data")` (arbitrary JSON or
absent). -/

/-- One content block, keyed by its stable id. -/
structure Block where
  id : String
  btype : Option Json
  data : Option Json

/-- Python `==` between two `.get` results, either of which may be the
default `None`: `None == None` is `True`, `None == value` is `False`. -/
def optPyEq : Option Json → Option Json → Bool
  | none, none => true
  | some a, some b => pyEq a b
  | _, _ => false

/-- Operation recorded in a block change. -/
inductive ChangeOp where
  | insert
  | modify
  | delete
  | move
deriving DecidableEq

/-- One entry of an oplog `blockChanges` list.  `none` fields correspond
to keys that `_append_oplog` strips before writing
(`{k: v for k, v in c.items() if v is not None}`). -/
structure BlockChange where
  blockId : String
  op : ChangeOp
  blockType : Option Json
  afterBlockId : Option String

/-- Lookup in the index dict `old_map`/`new_map` built by insertion with
overwrite: iterating `enumerate(blocks)` and storing `b["id"] -> (i, b)`
leaves, for each id, the pair of its **last** occurrence; on block lists
with distinct ids (the only ones the app produces) this is the unique
occurrence. -/
def idLookup (blocks : List Block) (bid : String) : Option (Nat × Block) :=
  go 0 blocks
where
  go (i : Nat) : List Block → Option (Nat × Block)
    | [] => none
    | b :: rest =>
      match go (i + 1) rest with
      | some r => some r
      | none => if b.id = bid then some (i, b) else none

/-- Body of the first `_diff_blocks` loop for one new block at index `i`
with preceding-block id `afterId`: a new id is an `insert`; an id whose
`data` or `type` changed (Python `!=`) is a `modify` (with no
`afterBlockId`); an unchanged id whose old position differs from `i` is a
`move`; otherwise nothing is emitted. -/
def emitChange (old : List Block) (b : Block) (i : Nat) (afterId : Option String) :
    List BlockChange :=
  match idLookup old b.id with
  | none => [⟨b.id, .insert, b.btype, afterId⟩]
  | some (oldIdx, oldBlock) =>
    if !optPyEq oldBlock.data b.data || !optPyEq oldBlock.btype b.btype then
      [⟨b.id, .modify, b.btype, none⟩]
    else if oldIdx ≠ i then
      [⟨b.id, .move, b.btype, afterId⟩]
    else []

/-- First loop of `_diff_blocks`: walk the new blocks in order, keeping
the running index `i` and the id of the preceding new block (`after_id`,
`None` for the first block), emitting each block's change records. -/
def diffNewAux (old : List Block) : List Block → Nat → Option String → List BlockChange
  | [], _, _ => []
  | b :: rest, i, afterId =>
    emitChange old b i afterId ++ diffNewAux old rest (i + 1) (some b.id)

/-- Embedding of `_diff_blocks` (page_storage.py:86-133): the new-sequence
pass followed by a `delete` for every old block whose id no longer occurs
in the new sequence (`delete` records carry no `afterBlockId`). -/
def diff_blocks (old new : List Block) : List BlockChange :=
  diffNewAux old new 0 none ++
    (old.filter (fun b => !(new.any (fun nb => nb.id == b.id)))).map
      (fun b => ⟨b.id, .delete, b.btype, none⟩)

/-! Oplog writer (`_read_last_hash`, `_append_oplog`,
page_storage.py:161-202) and the page store (`create_page`,
`update_page`, page_storage.py:229-335).  The oplog file is modelled as
the list of entries this writer has appended; a missing or empty journal
is the empty list. -/

/-- One oplog line as built by `_append_oplog`. -/
structure OplogEntry where
  ts : String
  clientId : String
  op : String
  contentHash : String
  prevHash : String
  blockChanges : List BlockChange
  blockCount : Nat

/-- Embedding of `_read_last_hash`: fold over the journal taking each
entry's `contentHash` (`entry.get("contentHash", last_hash)`; every entry
this writer appends carries the key), starting from `"genesis"` — so the
result is the last entry's hash, or `"genesis"` for a missing/empty
journal. -/
def read_last_hash (entries : List OplogEntry) : String :=
  entries.foldl (fun _ e => e.contentHash) "genesis"

/-- The `content.get("blocks", [])` list of a content dict (the writer
only ever stores an array under `"blocks"`). -/
def contentBlocks (c : Json) : List Json := 
  match objGet c "blocks" with
  | some (.arr xs) => xs
  | _ => []

/-- View of a raw block dict as a `Block`.  `b["id"]` would raise on a
block without a string id; the writer never produces one, and the model
drops such blocks. -/
def blockOfJson (b : Json) : Option Block :=
  match objGet b "id" with
  | some (.str s) => some ⟨s, objGet b "type", objGet b "data"⟩
  | _ => none

/-- The blocks of a content dict, as `Block`s. -/
def blocksOf (c : Json) : List Block := (contentBlocks c).filterMap blockOfJson

/-- Embedding of `_append_oplog` (page_storage.py:178-202): read the last
hash from the existing journal, build the entry with `prevHash` set to it
and `contentHash = _content_hash(content)`, append one line. -/
def append_oplog (entries : List OplogEntry) (ts clientId op : String) (content : Json)
    (blockChanges : List BlockChange) : List OplogEntry :=
  entries ++ [{ ts := ts, clientId := clientId, op := op,
                contentHash := content_hash content,
                prevHash := read_last_hash entries,
                blockChanges := blockChanges,
                blockCount := (contentBlocks content).length }]

/-- Fields of a page JSON file that the storage operations read or write.
Fields the claims never touch (`isCover`, `position`, `pageType`,
`folderId`, `sectionId`, ...) are omitted. -/
structure PageFile where
  id : String
  notebookId : String
  title : String
  content : Json
  tags : List String
  isArchived : Bool
  createdAt : String
  updatedAt : String

/-- A page together with its oplog journal — the two files
`pages/<id>.json` and `pages/<id>.oplog`. -/
structure PageState where
  page : PageFile
  oplog : List OplogEntry

/-- JSON form of a caller-supplied block, keys in the order
`id`, `type`, `data` (absent fields omitted). -/
def blockToJson (b : Block) : Json :=
  .obj ([("id", .str b.id)] ++
    (match b.btype with | some t => [("type", t)] | none => []) ++
    (match b.data with | some d => [("data", d)] | none => []))

/-- The `insert` change list `create_page` records: every block in order,
each carrying the preceding block's id as `afterBlockId`. -/
def insertChanges : List Block → Option String → List BlockChange
  | [], _ => []
  | b :: rest, afterId => ⟨b.id, .insert, b.btype, afterId⟩ :: insertChanges rest (some b.id)

/-- Embedding of `create_page` (page_storage.py:229-292): build the
content dict `{"time": ..., "version": "2.28.0", "blocks": [...]}`, write
the page file, and append a `"create"` oplog entry listing every block as
an `insert`.  `timeMs` is the epoch-millis clock read, `now` the ISO
timestamp for `createdAt`/`updatedAt`, `ts` the entry's own clock read;
`folder_id`/`section_id`/`extra_fields` only add page fields the claims
never read and are omitted. -/
def create_page (notebookId title : String) (blocks : List Block) (tags : List String)
    (pid : String) (timeMs : Int) (now ts clientId : String) : PageState :=
  let content : Json := .obj [("time", .num timeMs), ("version", .str "2.28.0"),
    ("blocks", .arr (blocks.map blockToJson))]
  let page : PageFile :=
    { id := pid, notebookId := notebookId, title := title, content := content,
      tags := tags, isArchived := false, createdAt := now, updatedAt := now }
  { page := page,
    oplog := append_oplog [] ts clientId "create" content (insertChanges blocks none) }

/-- Embedding of `update_page` (page_storage.py:294-335) on an existing
page (on a missing page the operation raises before touching any state):
apply exactly the supplied fields, stamp `updatedAt`, write the file, then
append a `"modify"` entry — with the old/new block diff when `content`
was supplied, and `[]` otherwise. -/
def update_page (s : PageState) (content : Option Json) (title : Option String)
    (tags : Option (List String)) (now ts clientId : String) : PageState :=
  let oldContent := s.page.content
  let page := { s.page with
    title := title.getD s.page.title,
    content := content.getD s.page.content,
    tags := tags.getD s.page.tags,
    updatedAt := now }
  let newContent := page.content
  let blockChanges := match content with
    | some _ => diff_blocks (blocksOf oldContent) (blocksOf newContent)
    | none => []
  { page := page, oplog := append_oplog s.oplog ts clientId "modify" newContent blockChanges }

/-- One call to `_append_oplog`, with the values the writer passes. -/
structure AppendCall where
  ts : String
  clientId : String
  op : String
  content : Json
  blockChanges : List BlockChange

/-- A journal produced solely by this writer: the given appends applied
in order to an initially missing journal. -/
def run_appends (entries : List OplogEntry) : List AppendCall → List OplogEntry
  | [] => entries
  | c :: cs => run_appends (append_oplog entries c.ts c.clientId c.op c.content c.blockChanges) cs

/-! Name resolver (`_resolve_name`, nous_mcp/storage.py:472-493).  The
items are dicts; `item.get(key, "")` is modelled by an accessor `keyOf`
returning the item's key value when present.  The raised `ValueError`s
are modelled as an error value carrying the name lists the messages
enumerate.  The UUID fast path of the `resolve_*` callers triggers before
`_resolve_name` is reached, so every input here is a non-UUID name.
Python `str.lower` is modelled per character (full-Unicode case folding
of exotic letters is out of scope). -/

/-- Python `name.lower()` as a character list. -/
def pyLower (s : String) : List Char := s.toList.map Char.toLower

/-- Error outcome of `_resolve_name`, with the candidate names its
message enumerates. -/
inductive ResolveErr where
  | notFound (available : List String)
  | ambiguous (names : List String)
deriving DecidableEq

/-- Python `item.get(key, "")`. -/
def getKey {α : Type} (keyOf : α → Option String) (item : α) : String :=
  (keyOf item).getD ""

/-- Embedding of `_resolve_name`: a unique case-insensitive exact match
wins outright; otherwise a unique case-insensitive head-match wins;
otherwise two or more head matches are ambiguous and zero are not
found. -/
def resolve_name {α : Type} (keyOf : α → Option String) (name : String)
    (items : List α) : Except ResolveErr α :=
  let nameLower := pyLower name
  match items.filter (fun it => pyLower (getKey keyOf it) == nameLower) with
  | [x] => .ok x
  | _ =>
    match items.filter (fun it => nameLower.isPrefixOf (pyLower (getKey keyOf it))) with
    | [x] => .ok x
    | [] => .error (.notFound (items.map (getKey keyOf)))
    | xs => .error (.ambiguous (xs.map (getKey keyOf)))

/-! Search (`search_pages` and `_extract_block_text`,
nous_mcp/storage.py:369-469).  A page file is modelled by the fields the
search reads; its blocks stay raw JSON for the type-driven text
extraction.  Where the Python code would raise on a non-string payload
(e.g. a numeric `data.text` reaching `str.lower`), the model substitutes
the empty string; the claims quantify over well-formed pages. -/

/-- A notebook as listed by `list_notebooks`. -/
structure Notebook where
  id : String
  name : String

/-- A page file as read by `search_pages`. -/
structure SearchPage where
  id : String
  title : String
  isArchived : Bool
  blocks : List Json
  tags : List String

/-- One search result entry. -/
structure SearchHit where
  pageId : String
  notebookId : String
  notebookName : String
  title : String
  snippet : String
  tags : List String

/-- String value of a `.get` result, `""` when absent. -/
def asStr : Option Json → String
  | some (.str s) => s
  | _ => ""

/-- Array value of a `.get` result, `[]` when absent. -/
def jArr : Option Json → List Json
  | some (.arr xs) => xs
  | _ => []

/-- Embedding of `_extract_block_text`: type-driven plain-text view of a
block (paragraph/header/quote text, code body, list and checklist items,
callout title+content, table cells), `""` for other types. -/
def extract_block_text (block : Json) : String :=
  let data := (objGet block "data").getD (.obj [])
  let btype := asStr (objGet block "type")
  if btype = "paragraph" || btype = "header" || btype = "quote" then
    asStr (objGet data "text")
  else if btype = "code" then
    asStr (objGet data "code")
  else if btype = "list" then
    String.intercalate " " ((jArr (objGet data "items")).filterMap fun item =>
      match item with
      | .str s => some s
      | .obj _ => some (match objGet item "content" with
          | some v => asStr (some v)
          | none => asStr (objGet item "text"))
      | _ => none)
  else if btype = "checklist" then
    String.intercalate " " ((jArr (objGet data "items")).map fun item =>
      asStr (objGet item "text"))
  else if btype = "callout" then
    asStr (objGet data "title") ++ " " ++ asStr (objGet data "content")
  else if btype = "table" then
    String.intercalate " " (((jArr (objGet data "content")).filterMap fun row =>
      match row with | .arr cells => some cells | _ => none).flatten.filterMap fun cell =>
        match cell with | .str s => some s | _ => none)
  else ""

/-- Python `haystack.find(needle)`: index of the first occurrence, or
`none` for `-1`. -/
def strFind (hay needle : List Char) : Option Nat :=
  go 0 hay
where
  go (i : Nat) (l : List Char) : Option Nat :=
    if needle.isPrefixOf l then some i
    else
      match l with
      | [] => none
      | _ :: t => go (i + 1) t

/-- The `±50`-character snippet around the first query occurrence, with
ellipsis markers at a truncated end (`text[start:end]` slicing). -/
def buildSnippet (text : List Char) (pos qlen : Nat) : String :=
  let n := text.length
  let start := pos - 50
  let stop := min n (pos + qlen + 50)
  String.mk ((if 0 < start then "...".toList else []) ++
    ((text.drop start).take (stop - start)) ++
    (if stop < n then "...".toList else []))

/-- The block-content scan of `search_pages`: first block whose extracted
text is nonempty and contains the query (case-insensitively) yields the
snippet; `""` when no block matches. -/
def findSnippet (ql : List Char) (qlen : Nat) : List Json → String
  | [] => ""
  | b :: rest =>
    let text := (extract_block_text b).toList
    if text.isEmpty then findSnippet ql qlen rest
    else
      match strFind (text.map Char.toLower) ql with
      | some pos => buildSnippet text pos qlen
      | none => findSnippet ql qlen rest

/-- Per-page step of the search scan: skip archived pages, test the title
(case-insensitive substring) and extract a snippet; a page matching
either way yields its entry tagged with whether it was a title match. -/
def pageHit (ql : List Char) (qlen : Nat) (nb : Notebook) (p : SearchPage) :
    Option (Bool × SearchHit) :=
  if p.isArchived then none
  else
    let titleHit := (strFind (p.title.toList.map Char.toLower) ql).isSome
    let snippet := findSnippet ql qlen p.blocks
    if titleHit || !(snippet == "") then
      some (titleHit, { pageId := p.id, notebookId := nb.id, notebookName := nb.name,
                        title := p.title, snippet := snippet, tags := p.tags })
    else none

/-- Inner loop of `search_pages`: append each page's entry to the title
or content accumulator. -/
def scanPages (ql : List Char) (qlen : Nat) (nb : Notebook) (pages : List SearchPage)
    (acc : List SearchHit × List SearchHit) : List SearchHit × List SearchHit :=
  match pages with
  | [] => acc
  | p :: rest =>
    scanPages ql qlen nb rest
      (match pageHit ql qlen nb p with
        | some (true, h) => (acc.1 ++ [h], acc.2)
        | some (false, h) => (acc.1, acc.2 ++ [h])
        | none => acc)

/-- Outer loop of `search_pages` over the notebooks in scan order. -/
def scanNotebooks (ql : List Char) (qlen : Nat) (nbs : List (Notebook × List SearchPage))
    (acc : List SearchHit × List SearchHit) : List SearchHit × List SearchHit :=
  match nbs with
  | [] => acc
  | (nb, pages) :: rest => scanNotebooks ql qlen rest (scanPages ql qlen nb pages acc)

/-- Embedding of `search_pages` (nous_mcp/storage.py:369-435): scan all
notebooks' page files (any scan order; an optional notebook filter only
restricts the scanned list), collecting title matches and content-only
matches separately, then return title matches first, truncated to
`limit`. -/
def search_pages (query : String) (notebooks : List (Notebook × List SearchPage))
    (limit : Nat) : List SearchHit :=
  let ql := pyLower query
  let acc := scanNotebooks ql query.toList.length notebooks ([], [])
  (acc.1 ++ acc.2).take limit

/-! Page listings.  `NousStorage.list_pages` (nous_mcp/storage.py:289-333)
filters archived pages and optional folder/section/tag criteria, sorts by
`updatedAt` descending and truncates to `limit`;
`NousPageStorage.list_pages` (nous_ai/page_storage.py:337-360) projects
every parseable page file, in sorted path order, with no archived filter
and no sort.  Input is the list of parsed page JSON dicts in scan order
(unparseable files are skipped by both implementations before this
point).  Pages without an `"id"` key are skipped here as well: the
nous_ai reader catches the `KeyError`, and the nous_mcp reader never
meets one on a store produced by the writers, which always record an
id. -/

/-- String field with a default (`page.get(k, dflt)` on string-valued
fields). -/
def jStrD (o : Option Json) (dflt : String) : String :=
  match o with
  | some (.str s) => s
  | _ => dflt

/-- Optional string field (`page.get(k)` with default `None`). -/
def jStrOpt : Option Json → Option String
  | some (.str s) => some s
  | _ => none

/-- Boolean field with a default (`page.get(k, dflt)`). -/
def jBoolD (o : Option Json) (dflt : Bool) : Bool :=
  match o with
  | some (.bool b) => b
  | _ => dflt

/-- String-list field (`page.get("tags", [])`). -/
def jStrList : Option Json → List String
  | some (.arr xs) => xs.filterMap fun x =>
      match x with
      | .str s => some s
      | _ => none
  | _ => []

/-- Page summary built by `NousStorage.list_pages`. -/
structure PageSummary where
  id : String
  title : String
  tags : List String
  folderId : Option String
  sectionId : Option String
  pageType : String
  isArchived : Bool
  updatedAt : String
  createdAt : String
deriving DecidableEq

/-- Page summary built by `NousPageStorage.list_pages` (it additionally
records `isDailyNote`). -/
structure AiPageSummary where
  id : String
  title : String
  tags : List String
  folderId : Option String
  sectionId : Option String
  pageType : String
  isArchived : Bool
  isDailyNote : Bool
  updatedAt : String
  createdAt : String
deriving DecidableEq

/-- Python string `<=`: lexicographic on code points. -/
def strLe (a b : String) : Bool :=
  go a.toList b.toList
where
  go : List Char → List Char → Bool
    | [], _ => true
    | _ :: _, [] => false
    | x :: xs, y :: ys => if x = y then go xs ys else decide (x < y)

/-- The guard `if param and page.get(field) != param: continue` — an
absent or empty (falsy) parameter disables the filter. -/
def filterMismatch (param : Option String) (field : Option String) : Bool :=
  match param with
  | some f => !(f == "") && !(field == some f)
  | none => false

/-- The guard `if tag and tag.lower() not in [t.lower() for t in tags]`. -/
def tagMismatch (tag : Option String) (tags : List String) : Bool :=
  match tag with
  | some t => !(t == "") &&
      !((tags.map fun s => String.mk (pyLower s)).contains (String.mk (pyLower t)))
  | none => false

/-- Embedding of `NousStorage.list_pages` (nous_mcp/storage.py:289-333):
skip archived pages and filter mismatches, project each page to its
summary, sort by `updatedAt` descending (`sort(..., reverse=True)` is a
stable descending sort, modelled by a stable merge sort under the
reversed key order) and truncate to `limit`. -/
def NousStorage.list_pages (pages : List Json) (folderId sectionId tag : Option String)
    (limit : Nat) : List PageSummary :=
  let results := pages.filterMap fun page =>
    match objGet page "id" with
    | some (.str pid) =>
      if jBoolD (objGet page "isArchived") false then none
      else if filterMismatch folderId (jStrOpt (objGet page "folderId")) then none
      else if filterMismatch sectionId (jStrOpt (objGet page "sectionId")) then none
      else if tagMismatch tag (jStrList (objGet page "tags")) then none
      else some
        { id := pid,
          title := jStrD (objGet page "title") "",
          tags := jStrList (objGet page "tags"),
          folderId := jStrOpt (objGet page "folderId"),
          sectionId := jStrOpt (objGet page "sectionId"),
          pageType := jStrD (objGet page "pageType") "standard",
          isArchived := jBoolD (objGet page "isArchived") false,
          updatedAt := jStrD (objGet page "updatedAt") "",
          createdAt := jStrD (objGet page "createdAt") "" }
    | _ => none
  (results.mergeSort (fun a b => strLe b.updatedAt a.updatedAt)).take limit

/-- Embedding of `NousPageStorage.list_pages`
(nous_ai/page_storage.py:337-360): project every page file, in sorted
path order, to its metadata summary — no archived filter, no sort, no
truncation. -/
def NousPageStorage.list_pages (pages : List Json) : List AiPageSummary :=
  pages.filterMap fun page =>
    match objGet page "id" with
    | some (.str pid) => some
        { id := pid,
          title := jStrD (objGet page "title") "",
          tags := jStrList (objGet page "tags"),
          folderId := jStrOpt (objGet page "folderId"),
          sectionId := jStrOpt (objGet page "sectionId"),
          pageType := jStrD (objGet page "pageType") "standard",
          isArchived := jBoolD (objGet page "isArchived") false,
          isDailyNote := jBoolD (objGet page "isDailyNote") false,
          updatedAt := jStrD (objGet page "updatedAt") "",
          createdAt := jStrD (objGet page "createdAt") "" }
    | _ => none

/-! Oplog reader (`read_oplog`, page_storage.py:204-218): split the file
into lines, strip each, skip blank lines, `json.loads` each remaining
line and silently skip the ones that fail to parse.  `json.loads` is
modelled by a fuel-bounded recursive-descent parser of the JSON grammar
(numbers restricted to the integers actually stored in oplog entries;
astral `\u` surrogate pairs and duplicate object keys — which Python
collapses to the last binding — are outside the modelled fragment). -/

/-- Whitespace stripped by Python `str.strip()` (ASCII range). -/
def pyWsChar (c : Char) : Bool :=
  c = ' ' || c = '\t' || c = '\n' || c = '\r' || c = '\x0b' || c = '\x0c'

/-- Python `line.strip()`. -/
def pyStrip (l : List Char) : List Char :=
  ((l.dropWhile pyWsChar).reverse.dropWhile pyWsChar).reverse

/-- Python `str.splitlines()` on the newline kinds a JSONL journal can
contain (`\n`, `\r`, `\r\n`); no trailing empty line for a trailing
terminator. -/
def splitLinesPy (s : List Char) : List (List Char) :=
  go [] s
where
  go (cur : List Char) : List Char → List (List Char)
    | [] => if cur.isEmpty then [] else [cur.reverse]
    | '\r' :: '\n' :: rest => cur.reverse :: go [] rest
    | '\n' :: rest => cur.reverse :: go [] rest
    | '\r' :: rest => cur.reverse :: go [] rest
    | c :: rest => go (c :: cur) rest

/-- JSON inter-token whitespace (RFC 8259 / `json.loads`). -/
def skipWs (l : List Char) : List Char :=
  l.dropWhile (fun c => c = ' ' || c = '\t' || c = '\n' || c = '\r')

/-- Body of a JSON string literal after the opening quote: content
characters and the terminating quote.  Raw control characters are
rejected (`json.loads` default `strict=True`), the standard escapes are
decoded. -/
def parseStringBody : List Char → Option (List Char × List Char)
  | [] => none
  | '"' :: rest => some ([], rest)
  | '\\' :: esc =>
    match esc with
    | '"' :: r => consChar '"' (parseStringBody r)
    | '\\' :: r => consChar '\\' (parseStringBody r)
    | '/' :: r => consChar '/' (parseStringBody r)
    | 'b' :: r => consChar '\x08' (parseStringBody r)
    | 'f' :: r => consChar '\x0c' (parseStringBody r)
    | 'n' :: r => consChar '\n' (parseStringBody r)
    | 'r' :: r => consChar '\r' (parseStringBody r)
    | 't' :: r => consChar '\t' (parseStringBody r)
    | 'u' :: h1 :: h2 :: h3 :: h4 :: r =>
      match hexVal h1, hexVal h2, hexVal h3, hexVal h4 with
      | some a, some b, some c, some d =>
        consChar (Char.ofNat (((a * 16 + b) * 16 + c) * 16 + d)) (parseStringBody r)
      | _, _, _, _ => none
    | _ => none
  | c :: rest => if c.toNat < 32 then none else consChar c (parseStringBody rest)
where
  /-- Value of a hexadecimal digit. -/
  hexVal (c : Char) : Option Nat :=
    if '0' ≤ c ∧ c ≤ '9' then some (c.toNat - 48)
    else if 'a' ≤ c ∧ c ≤ 'f' then some (c.toNat - 87)
    else if 'A' ≤ c ∧ c ≤ 'F' then some (c.toNat - 55)
    else none
  /-- Prepend a decoded character to a parse result. -/
  consChar (c : Char) : Option (List Char × List Char) → Option (List Char × List Char)
    | some (s, rest) => some (c :: s, rest)
    | none => none

/-- JSON number, restricted to integers: optional minus, `0` or a
nonzero-led digit run, no leading zeros, and no fraction/exponent (a
float would parse in Python; entries written by the storage layer contain
only integers). -/
def parseNumber (l : List Char) : Option (Json × List Char) :=
  match l with
  | '-' :: r => (core r).map fun p => (Json.num (-p.1), p.2)
  | _ => (core l).map fun p => (Json.num p.1, p.2)
where
  /-- Digits of the integer part, rejecting leading zeros and any
  fraction or exponent continuation. -/
  core (l : List Char) : Option (Int × List Char) :=
    match l with
    | '0' :: r =>
      if (r.head?.map Char.isDigit).getD false then none
      else if floatish r then none else some (0, r)
    | c :: _ =>
      if c.isDigit then
        let ds := l.takeWhile Char.isDigit
        let rest := l.dropWhile Char.isDigit
        if floatish rest then none
        else some ((ds.foldl (fun a d => a * 10 + (d.toNat - 48)) 0 : Nat), rest)
      else none
    | [] => none
  /-- A continuation that would make the literal a float. -/
  floatish (r : List Char) : Bool :=
    match r.head? with
    | some c => c = '.' || c = 'e' || c = 'E'
    | none => false

mutual
/-- One JSON value (fuel-bounded; callers supply fuel linear in the input
length, which the grammar cannot exhaust). -/
def parseValue : Nat → List Char → Option (Json × List Char)
  | 0, _ => none
  | fuel + 1, l =>
    match skipWs l with
    | 'n' :: 'u' :: 'l' :: 'l' :: rest => some (.null, rest)
    | 't' :: 'r' :: 'u' :: 'e' :: rest => some (.bool true, rest)
    | 'f' :: 'a' :: 'l' :: 's' :: 'e' :: rest => some (.bool false, rest)
    | '"' :: rest =>
      match parseStringBody rest with
      | some (s, r) => some (.str (String.mk s), r)
      | none => none
    | '[' :: rest =>
      match skipWs rest with
      | ']' :: r => some (.arr [], r)
      | l1 =>
        match parseElems fuel l1 with
        | some (xs, r) => some (.arr xs, r)
        | none => none
    | '\x7b' :: rest =>
      match skipWs rest with
      | '\x7d' :: r => some (.obj [], r)
      | l1 =>
        match parseMembers fuel l1 with
        | some (kvs, r) => some (.obj kvs, r)
        | none => none
    | l1 => parseNumber l1

/-- Nonempty comma-separated element list and the closing bracket. -/
def parseElems : Nat → List Char → Option (List Json × List Char)
  | 0, _ => none
  | fuel + 1, l =>
    match parseValue fuel l with
    | some (v, r) =>
      match skipWs r with
      | ']' :: r2 => some ([v], r2)
      | ',' :: r2 =>
        match parseElems fuel r2 with
        | some (vs, r3) => some (v :: vs, r3)
        | none => none
      | _ => none
    | none => none

/-- Nonempty comma-separated member list and the closing brace. -/
def parseMembers : Nat → List Char → Option (List (String × Json) × List Char)
  | 0, _ => none
  | fuel + 1, l =>
    match skipWs l with
    | '"' :: r =>
      match parseStringBody r with
      | some (k, r1) =>
        match skipWs r1 with
        | ':' :: r2 =>
          match parseValue fuel r2 with
          | some (v, r3) =>
            match skipWs r3 with
            | '\x7d' :: r4 => some ([(String.mk k, v)], r4)
            | ',' :: r4 =>
              match parseMembers fuel r4 with
              | some (kvs, r5) => some ((String.mk k, v) :: kvs, r5)
              | none => none
            | _ => none
          | none => none
        | _ => none
      | none => none
    | _ => none
end

/-- Python `json.loads` on one line: parse a value, allow trailing
whitespace only. -/
def jsonLoads (l : List Char) : Option Json :=
  match parseValue (4 * l.length + 16) l with
  | some (v, rest) => if (skipWs rest).isEmpty then some v else none
  | none => none

/-- Embedding of `read_oplog` (page_storage.py:204-218): iterate the
journal's lines in order, strip each, skip blank lines, append the
parsed entry when `json.loads` succeeds and silently continue when it
raises.  A missing journal file reads as the empty text.  The function is
total: no input raises. -/
def read_oplog (text : String) : List Json :=
  (splitLinesPy text.toList).foldl
    (fun entries line =>
      let l := pyStrip line
      if l.isEmpty then entries
      else
        match jsonLoads l with
        | some e => entries ++ [e]
        | none => entries) []

/-! Derived notions used by the theorems below, and the concrete values
the witnesses and counterexamples evaluate. -/

/-- Well-formedness of a `.get` result (`None` or a well-formed value). -/
def optWF : Option Json → Bool
  | none => true
  | some j => JsonWF j

/-- The chain link invariant between consecutive oplog entries. -/
def chainRel (a b : OplogEntry) : Prop := b.prevHash = a.contentHash

/-- Chain integrity of a journal: the first entry (if any) points at
`"genesis"` and every later entry points at its predecessor's
`contentHash`. -/
def chainOk (l : List OplogEntry) : Prop :=
  (∀ e, l.head? = some e → e.prevHash = "genesis") ∧ l.Chain' chainRel

/-- The entry a page contributes to the title-match accumulator. -/
def titleEntry (ql : List Char) (qlen : Nat) (nb : Notebook) (p : SearchPage) :
    Option SearchHit :=
  match pageHit ql qlen nb p with
  | some (true, h) => some h
  | _ => none

/-- The entry a page contributes to the content-match accumulator. -/
def contentEntry (ql : List Char) (qlen : Nat) (nb : Notebook) (p : SearchPage) :
    Option SearchHit :=
  match pageHit ql qlen nb p with
  | some (false, h) => some h
  | _ => none

/-- All title-match entries of a scan, in scan order. -/
def titleHitsOf (ql : List Char) (qlen : Nat) : List (Notebook × List SearchPage) → List SearchHit
  | [] => []
  | (nb, ps) :: rest => ps.filterMap (titleEntry ql qlen nb) ++ titleHitsOf ql qlen rest

/-- All content-only entries of a scan, in scan order. -/
def contentHitsOf (ql : List Char) (qlen : Nat) : List (Notebook × List SearchPage) → List SearchHit
  | [] => []
  | (nb, ps) :: rest => ps.filterMap (contentEntry ql qlen nb) ++ contentHitsOf ql qlen rest

/-- Whether a search hit's page title matches the query
(case-insensitive substring — the classification `search_pages` uses). -/
def titleMatches (query : String) (h : SearchHit) : Bool :=
  (strFind (pyLower h.title) (pyLower query)).isSome

/-- A `PageContent` value `{"time": 1, "version": "2.28.0", "blocks": []}`. -/
def exContentA : Json :=
  .obj [("time", .num 1), ("version", .str "2.28.0"), ("blocks", .arr [])]

/-- The same `PageContent` mapping with the keys inserted in a different
order. -/
def exContentB : Json :=
  .obj [("version", .str "2.28.0"), ("time", .num 1), ("blocks", .arr [])]

/-- Block A of the diff test. -/
def exA : Block := ⟨"A", some (.str "paragraph"), some (.obj [("text", .str "a")])⟩

/-- Block B of the diff test. -/
def exB : Block := ⟨"B", some (.str "paragraph"), some (.obj [("text", .str "b")])⟩

/-- Block C of the diff test. -/
def exC : Block := ⟨"C", some (.str "paragraph"), some (.obj [("text", .str "c")])⟩

/-- Block B with B's id but changed text. -/
def exB2 : Block := ⟨"B", some (.str "paragraph"), some (.obj [("text", .str "b2")])⟩

/-- The diff of `[A,B,C]` against `[A,C,B']`. -/
def exDiff3 : List BlockChange := diff_blocks [exA, exB, exC] [exA, exC, exB2]

/-- A first oplog append call. -/
def exCall1 : AppendCall :=
  { ts := "t1", clientId := "agent", op := "create", content := exContentA, blockChanges := [] }

/-- A second oplog append call. -/
def exCall2 : AppendCall :=
  { ts := "t2", clientId := "agent", op := "modify", content := exContentB, blockChanges := [] }

/-- An old block whose data will change. -/
def exOld4 : Block := ⟨"x", some (.str "paragraph"), some (.str "a")⟩

/-- The same block id with changed data. -/
def exNew4 : Block := ⟨"x", some (.str "paragraph"), some (.str "b")⟩

/-- The single block of the idempotent-update test page. -/
def exBlock6 : Block := ⟨"b1", some (.str "paragraph"), some (.obj [("text", .str "Hello")])⟩

/-- A freshly created page with one block. -/
def exState6 : PageState :=
  create_page "nb1" "Title" [exBlock6] ["t"] "p1" 1 "now0" "ts0" "agent"

/-- The oplog entry `create_page` wrote for `exState6`. -/
def exPrev6 : OplogEntry :=
  { ts := "ts0", clientId := "agent", op := "create",
    contentHash := content_hash exState6.page.content,
    prevHash := "genesis",
    blockChanges := insertChanges [exBlock6] none,
    blockCount := 1 }

/-- A page created with no blocks (for the key-order counterexample). -/
def exState6c : PageState := create_page "nb1" "Title" [] [] "p2" 1 "now0" "ts0" "agent"

/-- The state after updating `exState6c` with `exContentB` — content
structurally equal (Python `==`) to the stored content `exContentA`, with
the keys in a different insertion order. -/
def exState6c' : PageState :=
  update_page exState6c (some exContentB) none none "now1" "ts1" "agent"

/-- An archived page file. -/
def exArchivedPage : Json :=
  .obj [("id", .str "p1"), ("title", .str "Old"), ("isArchived", .bool true),
        ("updatedAt", .str "2026-01-01")]

/-! Theorems.  Shared helper lemmas first, then one theorem per claim
(with a witness or counterexample where required). -/

/-- A list is a `isPrefixOf` of itself. -/
theorem isPrefixOf_self (l : List Char) : l.isPrefixOf l = true := by
  induction l with
  | nil => rfl
  | cons a t ih => simp [List.isPrefixOf, ih]

/-- Serialisation of `exContentA`, validated against
`json.dumps(c, separators=(",", ":"), ensure_ascii=False)`. -/
theorem dumps_exContentA :
    dumps exContentA = "\x7b\"time\":1,\"version\":\"2.28.0\",\"blocks\":[]\x7d".toList := by
  simp [exContentA, dumps, dumpsObj, dumpsList, dumpString, escapeChar]
  decide

/-- Serialisation of the key-reordered `exContentB`. -/
theorem dumps_exContentB :
    dumps exContentB = "\x7b\"version\":\"2.28.0\",\"time\":1,\"blocks\":[]\x7d".toList := by
  simp [exContentB, dumps, dumpsObj, dumpsList, dumpString, escapeChar]
  decide

/-- The hash of `exContentA`, validated against
`hashlib.sha256(raw.encode("utf-8")).hexdigest()`. -/
theorem content_hash_exContentA_val :
    content_hash exContentA =
      "sha256:adc312347de24858bf0c71a1a6b087be8603f3bcd7cb5d8b25b803919367ea95" := by
  rw [content_hash, dumps_exContentA]
  decide

/-- The hash of the key-reordered `exContentB`. -/
theorem content_hash_exContentB_val :
    content_hash exContentB =
      "sha256:34f2c371701020c934ff8cd56fa4033896950ae2ee66ac4028d29cf98f4cf112" := by
  rw [content_hash, dumps_exContentB]
  decide

/-- C1: the spec demands a canonical serialisation — `hash(content) ==
hash(content')` whenever the contents are structurally equal, key
insertion order notwithstanding.  `_content_hash` serialises with
`json.dumps` and no `sort_keys`, so insertion order reaches the bytes:
the two structurally-equal (`pyEq`) contents `exContentA`/`exContentB`
produce different `"sha256:<hex>"` strings.  This evaluates the code at
the failing input, exhibiting the divergence from the spec. -/
theorem content_hash_key_order_dependent :
    pyEq exContentA exContentB = true ∧ content_hash exContentA ≠ content_hash exContentB := by
  constructor
  · simp [exContentA, exContentB, pyEq, pyEqObj, pyEqLookup, pyEqList]
  · rw [content_hash_exContentA_val, content_hash_exContentB_val]
    decide

/-- C3: diffing old blocks `[A,B,C]` against new blocks `[A,C,B']` (B'
has B's id, changed text) reports exactly one `modify` for B's id,
exactly one `move` for C's id (placed after A), no record at all for A,
and no `insert` or `delete` anywhere. -/
theorem diff_blocks_modify_and_move_only :
    (exDiff3.filter (fun c => c.blockId == "B")).map BlockChange.op = [.modify] ∧
    (exDiff3.filter (fun c => c.blockId == "C")).map BlockChange.op = [.move] ∧
    (exDiff3.filter (fun c => c.blockId == "C")).map BlockChange.afterBlockId = [some "A"] ∧
    (exDiff3.filter (fun c => c.blockId == "A")).length = 0 ∧
    exDiff3.all (fun c => !(c.op == .insert) && !(c.op == .delete)) = true := by
  have h : exDiff3 = [⟨"C", .move, some (.str "paragraph"), some "A"⟩,
                      ⟨"B", .modify, some (.str "paragraph"), none⟩] := by
    simp [exDiff3, diff_blocks, diffNewAux, emitChange, idLookup, idLookup.go, optPyEq, pyEq,
      pyEqObj, pyEqLookup, pyEqList, exA, exB, exC, exB2]
  rw [h]
  decide

/-- C5: when exactly one candidate's key equals the input
case-insensitively, `_resolve_name` returns that candidate — the prefix
tier (where the input may also head other candidates' keys) is never
consulted. -/
theorem resolve_name_exact_match_wins {α : Type} (keyOf : α → Option String) (name : String)
    (items : List α) (x : α)
    (h : items.filter (fun it => pyLower (getKey keyOf it) == pyLower name) = [x]) :
    resolve_name keyOf name items = .ok x := by
  simp [resolve_name, h]

/-- Witness for C5 at the spec's own example: candidates
`{"Work", "Work Archive"}` with query `"Work"` resolve to `"Work"`. -/
theorem resolve_name_exact_match_wins_witness :
    resolve_name some "Work" ["Work", "Work Archive"] = .ok "Work" :=
  resolve_name_exact_match_wins some "Work" ["Work", "Work Archive"] "Work" (by decide)

/-- C9: `read_oplog` never raises, and returns exactly the entries of
the lines that parse — in file order — silently skipping blank and
malformed lines.  (Totality is by construction: `read_oplog` is a total
function of the file text.) -/
theorem read_oplog_parses_well_formed_lines (text : String) :
    read_oplog text = (splitLinesPy text.toList).filterMap
      (fun line => if (pyStrip line).isEmpty then none else jsonLoads (pyStrip line)) := by
  unfold read_oplog
  suffices h : ∀ (lines : List (List Char)) (acc : List Json),
      List.foldl
        (fun entries line =>
          if pyStrip line = [] then entries
          else
            match jsonLoads (pyStrip line) with
            | some e => entries ++ [e]
            | none => entries) acc lines =
      acc ++ lines.filterMap
        (fun line => if (pyStrip line).isEmpty then none else jsonLoads (pyStrip line)) by
    simpa using h (splitLinesPy text.toList) []
  intro lines
  induction lines with
  | nil => intro acc; simp
  | cons x t ih =>
    intro acc
    by_cases hx : pyStrip x = []
    · simp [hx, ih]
    · cases hj : jsonLoads (pyStrip x) with
      | none => simp [hx, hj, ih]
      | some e => simp [hx, hj, ih]

/-- C10: when two or more candidates' keys equal the input
case-insensitively, every exact match is also a head match, so the
resolver reaches the ambiguity branch: it raises the Ambiguous error and
the names it enumerates include every one of the exact matches — it
never silently returns one of the duplicates. -/
theorem resolve_name_duplicate_exact_ambiguous {α : Type} (keyOf : α → Option String)
    (name : String) (items : List α)
    (h : 2 ≤ (items.filter (fun it => pyLower (getKey keyOf it) == pyLower name)).length) :
    ∃ names, resolve_name keyOf name items = .error (.ambiguous names) ∧
      ∀ it ∈ items.filter (fun it => pyLower (getKey keyOf it) == pyLower name),
        getKey keyOf it ∈ names := by
  have himp : ∀ it, (pyLower (getKey keyOf it) == pyLower name) = true →
      ((pyLower name).isPrefixOf (pyLower (getKey keyOf it))) = true := by
    intro it heq
    rw [eq_of_beq heq]
    exact isPrefixOf_self _
  have hsub : List.Sublist
      (items.filter (fun it => pyLower (getKey keyOf it) == pyLower name))
      (items.filter (fun it => (pyLower name).isPrefixOf (pyLower (getKey keyOf it)))) :=
    List.monotone_filter_right items (by intro a ha; exact himp a ha)
  have hPlen : 2 ≤ (items.filter
      (fun it => (pyLower name).isPrefixOf (pyLower (getKey keyOf it)))).length :=
    le_trans h hsub.length_le
  obtain ⟨e1, e2, er, hE⟩ : ∃ a b t,
      items.filter (fun it => pyLower (getKey keyOf it) == pyLower name) = a :: b :: t := by
    rcases hEq : items.filter (fun it => pyLower (getKey keyOf it) == pyLower name) with
      _ | ⟨a, _ | ⟨b, t⟩⟩
    · rw [hEq] at h; simp at h
    · rw [hEq] at h; simp at h
    · exact ⟨a, b, t, rfl⟩
  obtain ⟨p1, p2, pr, hP⟩ : ∃ a b t,
      items.filter (fun it => (pyLower name).isPrefixOf (pyLower (getKey keyOf it))) =
        a :: b :: t := by
    rcases hPq : items.filter
        (fun it => (pyLower name).isPrefixOf (pyLower (getKey keyOf it))) with
      _ | ⟨a, _ | ⟨b, t⟩⟩
    · rw [hPq] at hPlen; simp at hPlen
    · rw [hPq] at hPlen; simp at hPlen
    · exact ⟨a, b, t, rfl⟩
  refine ⟨(p1 :: p2 :: pr).map (getKey keyOf), ?_, ?_⟩
  · simp only [resolve_name, hE, hP]
  · intro it hit
    have hmemP : it ∈ items.filter
        (fun it => (pyLower name).isPrefixOf (pyLower (getKey keyOf it))) := by
      rw [List.mem_filter] at hit ⊢
      exact ⟨hit.1, himp it hit.2⟩
    rw [hP] at hmemP
    exact List.mem_map_of_mem (getKey keyOf) hmemP

/-- Witness for C10: two candidates equal to the query up to case are
reported ambiguous, both enumerated. -/
theorem resolve_name_duplicate_exact_ambiguous_witness :
    ∃ names, resolve_name some "work" ["Work", "work"] = .error (.ambiguous names) ∧
      ∀ it ∈ ["Work", "work"].filter (fun it => pyLower (getKey some it) == pyLower "work"),
        getKey some it ∈ names :=
  resolve_name_duplicate_exact_ambiguous some "work" ["Work", "work"] (by decide)

/-- The folded last hash is the last entry's `contentHash`, or
`"genesis"` on an empty journal. -/
theorem read_last_hash_spec (l : List OplogEntry) :
    read_last_hash l = (l.getLast?.map OplogEntry.contentHash).getD "genesis" := by
  induction l using List.reverseRecOn with
  | nil => rfl
  | append_singleton l e _ => simp [read_last_hash, List.foldl_append]

/-- One `_append_oplog` call preserves chain integrity: the appended
entry's `prevHash` is the journal's current last hash. -/
theorem chainOk_append (l : List OplogEntry) (hok : chainOk l)
    (ts clientId op : String) (content : Json) (blockChanges : List BlockChange) :
    chainOk (append_oplog l ts clientId op content blockChanges) := by
  obtain ⟨hhead, hchain⟩ := hok
  constructor
  · intro e he
    cases l with
    | nil =>
      simp [append_oplog] at he
      rw [← he]
      rfl
    | cons a t =>
      simp [append_oplog] at he
      rw [← he]
      exact hhead a rfl
  · rw [append_oplog, List.chain'_append]
    refine ⟨hchain, List.chain'_singleton _, ?_⟩
    intro x hx y hy
    simp at hy
    subst hy
    show read_last_hash l = x.contentHash
    rw [read_last_hash_spec, hx]
    rfl

/-- Every sequence of `_append_oplog` calls preserves chain integrity. -/
theorem run_appends_chainOk (calls : List AppendCall) :
    ∀ (l : List OplogEntry), chainOk l → chainOk (run_appends l calls) := by
  induction calls with
  | nil => intro l h; exact h
  | cons c cs ih =>
    intro l h
    exact ih _ (chainOk_append l h c.ts c.clientId c.op c.content c.blockChanges)

/-- C2: for a journal produced solely by this writer's appends starting
from no journal file, the entries read back chain correctly:
`entry[0].prevHash = "genesis"` and
`entry[i].prevHash = entry[i-1].contentHash` for all `i > 0`. -/
theorem oplog_chain_integrity (calls : List AppendCall) :
    (∀ (h : 0 < (run_appends [] calls).length),
      ((run_appends [] calls).get ⟨0, h⟩).prevHash = "genesis") ∧
    ∀ (i : Nat) (h : i + 1 < (run_appends [] calls).length),
      ((run_appends [] calls).get ⟨i + 1, h⟩).prevHash =
        ((run_appends [] calls).get ⟨i, Nat.lt_of_succ_lt h⟩).contentHash := by
  have hok : chainOk (run_appends [] calls) :=
    run_appends_chainOk calls [] ⟨by simp, List.chain'_nil⟩
  obtain ⟨hhead, hchain⟩ := hok
  constructor
  · intro h
    apply hhead
    rw [List.head?_eq_getElem?]
    simp [List.getElem?_eq_getElem h]
  · intro i h
    exact (List.chain'_iff_get.mp hchain) i (by omega)

/-- Witness for C2: after two concrete appends, the second entry links
to the first entry's hash. -/
theorem oplog_chain_integrity_witness :
    ((run_appends [] [exCall1, exCall2]).get ⟨1, by decide⟩).prevHash =
      ((run_appends [] [exCall1, exCall2]).get ⟨0, by decide⟩).contentHash :=
  (oplog_chain_integrity [exCall1, exCall2]).2 0 (by decide)

/-- Totality of the lexicographic string order. -/
theorem strLe_go_total : ∀ (x y : List Char), (strLe.go x y || strLe.go y x) = true := by
  intro x
  induction x with
  | nil => intro y; simp [strLe.go]
  | cons c xs ih =>
    intro y
    cases y with
    | nil => simp [strLe.go]
    | cons d ys =>
      by_cases h : c = d
      · subst h
        simpa [strLe.go] using ih ys
      · have h2 : d ≠ c := fun hh => h hh.symm
        rcases lt_or_gt_of_ne h with hlt | hgt
        · simp [strLe.go, h, h2, hlt]
        · simp [strLe.go, h, h2, hgt]
  
/-- Transitivity of the lexicographic string order. -/
theorem strLe_go_trans : ∀ (x y z : List Char),
    strLe.go x y = true → strLe.go y z = true → strLe.go x z = true := by
  intro x
  induction x with
  | nil => intro y z _ _; simp [strLe.go]
  | cons c xs ih =>
    intro y z hxy hyz
    cases y with
    | nil => simp [strLe.go] at hxy
    | cons d ys =>
      cases z with
      | nil => simp [strLe.go] at hyz
      | cons e zs =>
        by_cases hcd : c = d <;> by_cases hde : d = e
        · subst hcd; subst hde
          simp only [strLe.go, if_pos rfl] at hxy hyz ⊢
          exact ih ys zs hxy hyz
        · subst hcd
          simp only [strLe.go, if_pos rfl] at hxy
          simpa only [strLe.go, if_neg hde] using hyz
        · subst hde
          simpa only [strLe.go, if_neg hcd] using hxy
        · simp only [strLe.go, if_neg hcd] at hxy
          simp only [strLe.go, if_neg hde] at hyz
          have hce : c ≠ e := by
            intro hh
            subst hh
            exact absurd (lt_trans (of_decide_eq_true hxy) (of_decide_eq_true hyz))
              (lt_irrefl c)
          simp only [strLe.go, if_neg hce]
          exact decide_eq_true (lt_trans (of_decide_eq_true hxy) (of_decide_eq_true hyz))

/-- C8 (amended): `NousStorage.list_pages` (nous_mcp/storage.py) returns
no archived page, sorted by `updatedAt` descending, truncated to at most
`limit` entries.  (The nous_ai `NousPageStorage.list_pages` does neither
— see the counterexample.) -/
theorem mcp_list_pages_unarchived_sorted (pages : List Json)
    (folderId sectionId tag : Option String) (limit : Nat) :
    (∀ s ∈ NousStorage.list_pages pages folderId sectionId tag limit, s.isArchived = false) ∧
    List.Pairwise (fun a b => strLe b.updatedAt a.updatedAt = true)
      (NousStorage.list_pages pages folderId sectionId tag limit) ∧
    (NousStorage.list_pages pages folderId sectionId tag limit).length ≤ limit := by
  refine ⟨?_, ?_, ?_⟩
  · intro s hs
    simp only [NousStorage.list_pages] at hs
    have hs1 := List.mem_mergeSort.mp (List.mem_of_mem_take hs)
    obtain ⟨page, _, hf⟩ := List.mem_filterMap.mp hs1
    rcases hid : objGet page "id" with _ | v
    · rw [hid] at hf; simp at hf
    · rcases v with _ | _ | _ | pid | _ | _ <;> rw [hid] at hf <;> simp at hf
      obtain ⟨h1, _, _, _, heq⟩ := hf
      rw [← heq]
      exact h1
  · simp only [NousStorage.list_pages]
    apply List.Pairwise.sublist (List.take_sublist _ _)
    refine (List.sorted_mergeSort ?_ ?_ _).imp (fun h => h)
    · exact fun a b c hab hbc => strLe_go_trans _ _ _ hbc hab
    · exact fun a b => strLe_go_total b.updatedAt.toList a.updatedAt.toList
  · simp only [NousStorage.list_pages]
    exact List.length_take_le _ _

/-- Counterexample for C8 as stated: `NousPageStorage.list_pages`
(nous_ai/page_storage.py) returns an archived page rather than excluding
it. -/
theorem ai_list_pages_includes_archived :
    (NousPageStorage.list_pages [exArchivedPage]).map
      (fun s => (s.id, s.isArchived)) = [("p1", true)] := by
  rfl

/-- The page loop splits into the two filterMaps over the scanned pages,
appended to the incoming accumulators. -/
theorem scanPages_eq (ql : List Char) (qlen : Nat) (nb : Notebook) :
    ∀ (pages : List SearchPage) (acc : List SearchHit × List SearchHit),
      scanPages ql qlen nb pages acc =
        (acc.1 ++ pages.filterMap (titleEntry ql qlen nb),
         acc.2 ++ pages.filterMap (contentEntry ql qlen nb)) := by
  intro pages
  induction pages with
  | nil => intro acc; simp [scanPages]
  | cons p rest ih =>
    intro acc
    rw [scanPages, ih]
    cases hph : pageHit ql qlen nb p with
    | none => simp [titleEntry, contentEntry, hph, List.filterMap_cons]
    | some pr =>
      rcases pr with ⟨flag, h⟩
      cases flag
      · simp [titleEntry, contentEntry, hph, List.filterMap_cons]
      · simp [titleEntry, contentEntry, hph, List.filterMap_cons]

/-- The notebook loop splits into the global title and content hit
lists, appended to the incoming accumulators. -/
theorem scanNotebooks_eq (ql : List Char) (qlen : Nat) :
    ∀ (nbs : List (Notebook × List SearchPage)) (acc : List SearchHit × List SearchHit),
      scanNotebooks ql qlen nbs acc =
        (acc.1 ++ titleHitsOf ql qlen nbs, acc.2 ++ contentHitsOf ql qlen nbs) := by
  intro nbs
  induction nbs with
  | nil => intro acc; simp [scanNotebooks, titleHitsOf, contentHitsOf]
  | cons nbp rest ih =>
    intro acc
    rcases nbp with ⟨nb, ps⟩
    rw [scanNotebooks, scanPages_eq, ih]
    simp [titleHitsOf, contentHitsOf]

/-- A page entry tagged as a title match has the query as a
case-insensitive substring of its title. -/
theorem pageHit_true_titleMatches (ql : List Char) (qlen : Nat) (nb : Notebook)
    (p : SearchPage) (h : SearchHit)
    (heq : pageHit ql qlen nb p = some (true, h)) :
    (strFind (pyLower h.title) ql).isSome = true := by
  simp only [pageHit] at heq
  split at heq
  · exact absurd heq (by simp)
  · split at heq
    · simp only [Option.some_inj, Prod.mk.injEq] at heq
      obtain ⟨hflag, hrec⟩ := heq
      rw [← hrec]
      simpa [pyLower] using hflag
    · exact absurd heq (by simp)

/-- A page entry tagged as a content-only match does not have the query
in its title. -/
theorem pageHit_false_titleMatches (ql : List Char) (qlen : Nat) (nb : Notebook)
    (p : SearchPage) (h : SearchHit)
    (heq : pageHit ql qlen nb p = some (false, h)) :
    (strFind (pyLower h.title) ql).isSome = false := by
  simp only [pageHit] at heq
  split at heq
  · exact absurd heq (by simp)
  · split at heq
    · simp only [Option.some_inj, Prod.mk.injEq] at heq
      obtain ⟨hflag, hrec⟩ := heq
      rw [← hrec]
      simpa [pyLower] using hflag
    · exact absurd heq (by simp)

/-- Every entry of the title accumulator is a title match. -/
theorem mem_titleHitsOf (query : String) (qlen : Nat)
    (nbs : List (Notebook × List SearchPage)) (h : SearchHit)
    (hmem : h ∈ titleHitsOf (pyLower query) qlen nbs) : titleMatches query h = true := by
  induction nbs with
  | nil => simp [titleHitsOf] at hmem
  | cons nbp rest ih =>
    rcases nbp with ⟨nb, ps⟩
    rw [titleHitsOf, List.mem_append] at hmem
    rcases hmem with hmem | hmem
    · obtain ⟨p, _, ht⟩ := List.mem_filterMap.mp hmem
      unfold titleEntry at ht
      rcases hph : pageHit (pyLower query) qlen nb p with _ | ⟨_ | _, hit⟩ <;>
        rw [hph] at ht <;> simp at ht
      rw [← ht]
      exact pageHit_true_titleMatches _ _ _ _ _ hph
    · exact ih hmem

/-- Every entry of the content accumulator is not a title match. -/
theorem mem_contentHitsOf (query : String) (qlen : Nat)
    (nbs : List (Notebook × List SearchPage)) (h : SearchHit)
    (hmem : h ∈ contentHitsOf (pyLower query) qlen nbs) : titleMatches query h = false := by
  induction nbs with
  | nil => simp [contentHitsOf] at hmem
  | cons nbp rest ih =>
    rcases nbp with ⟨nb, ps⟩
    rw [contentHitsOf, List.mem_append] at hmem
    rcases hmem with hmem | hmem
    · obtain ⟨p, _, ht⟩ := List.mem_filterMap.mp hmem
      unfold contentEntry at ht
      rcases hph : pageHit (pyLower query) qlen nb p with _ | ⟨_ | _, hit⟩ <;>
        rw [hph] at ht <;> simp at ht
      rw [← ht]
      exact pageHit_false_titleMatches _ _ _ _ _ hph
    · exact ih hmem

/-- C7: `search_pages` returns, for any scan order, exactly the title
matches (in scan order) followed by the content-only matches (in scan
order), truncated to at most `limit` entries; every entry of the first
segment title-matches the query and no entry of the second does. -/
theorem search_pages_title_matches_first (query : String)
    (nbs : List (Notebook × List SearchPage)) (limit : Nat) :
    search_pages query nbs limit =
      (titleHitsOf (pyLower query) query.toList.length nbs ++
       contentHitsOf (pyLower query) query.toList.length nbs).take limit ∧
    (search_pages query nbs limit).length ≤ limit ∧
    (∀ h ∈ titleHitsOf (pyLower query) query.toList.length nbs, titleMatches query h = true) ∧
    (∀ h ∈ contentHitsOf (pyLower query) query.toList.length nbs,
      titleMatches query h = false) := by
  have hchar : search_pages query nbs limit =
      (titleHitsOf (pyLower query) query.toList.length nbs ++
       contentHitsOf (pyLower query) query.toList.length nbs).take limit := by
    simp only [search_pages]
    rw [scanNotebooks_eq]
    simp
  refine ⟨hchar, ?_, ?_, ?_⟩
  · rw [hchar]; exact List.length_take_le _ _
  · exact fun h hm => mem_titleHitsOf query _ nbs h hm
  · exact fun h hm => mem_contentHitsOf query _ nbs h hm

/-- Splitting a list with pairwise-distinct keys around one element: no
other element shares its key. -/
theorem nodup_key_split {β : Type} (f : β → String) (l1 l2 : List β) (b : β)
    (h : ((l1 ++ b :: l2).map f).Nodup) :
    (∀ a ∈ l1, f a ≠ f b) ∧ (∀ a ∈ l2, f a ≠ f b) := by
  rw [List.map_append, List.map_cons, List.nodup_append] at h
  obtain ⟨_, h2, hdisj⟩ := h
  constructor
  · intro a ha heq
    exact hdisj (List.mem_map_of_mem f ha) (by rw [heq]; exact List.mem_cons_self _ _)
  · intro a ha heq
    exact (List.nodup_cons.mp h2).1 (heq ▸ List.mem_map_of_mem f ha)

/-- The index scan returns `none` when no block carries the id. -/
theorem idLookup_go_none (bid : String) :
    ∀ (i : Nat) (l : List Block), (∀ b ∈ l, b.id ≠ bid) → idLookup.go bid i l = none := by
  intro i l
  induction l generalizing i with
  | nil => intro _; rfl
  | cons b rest ih =>
    intro hl
    rw [idLookup.go, ih (i + 1) (fun a ha => hl a (List.mem_cons_of_mem b ha))]
    simp [hl b (List.mem_cons_self b rest)]

/-- The index scan finds the unique block carrying the id, at its own
position. -/
theorem idLookup_go_found (bid : String) (b : Block) (hb : b.id = bid) :
    ∀ (pre : List Block) (i : Nat) (suf : List Block),
      (∀ a ∈ suf, a.id ≠ bid) →
      idLookup.go bid i (pre ++ b :: suf) = some (i + pre.length, b) := by
  intro pre
  induction pre with
  | nil =>
    intro i suf hsuf
    rw [List.nil_append, idLookup.go, idLookup_go_none bid (i + 1) suf hsuf]
    simp [hb]
  | cons a pre ih =>
    intro i suf hsuf
    rw [List.cons_append, idLookup.go, ih (i + 1) suf hsuf]
    simp
    omega

/-- `old_map` lookup on a list of pairwise-distinct ids: the unique block
with the id, paired with its index. -/
theorem idLookup_append (pre suf : List Block) (b : Block) (bid : String) (hb : b.id = bid)
    (hsuf : ∀ a ∈ suf, a.id ≠ bid) :
    idLookup (pre ++ b :: suf) bid = some (pre.length, b) := by
  rw [idLookup]
  rw [idLookup_go_found bid b hb pre 0 suf hsuf]
  simp

/-- A block's emitted change records all carry that block's id. -/
theorem emitChange_filter_ne (old : List Block) (b : Block) (i : Nat) (aft : Option String)
    (bid : String) (hne : b.id ≠ bid) :
    (emitChange old b i aft).filter (fun c => c.blockId == bid) = [] := by
  rw [emitChange]
  cases idLookup old b.id with
  | none => simp [hne]
  | some p =>
    rcases p with ⟨oldIdx, oldBlock⟩
    dsimp only
    split_ifs <;> simp [hne]

/-- A changed block (data or type differs, Python `!=`) emits exactly
the single `modify` record, carrying no `afterBlockId`. -/
theorem emitChange_modify (old : List Block) (b : Block) (i : Nat) (aft : Option String)
    (j : Nat) (oldBlock : Block) (hL : idLookup old b.id = some (j, oldBlock))
    (hdiff : (!optPyEq oldBlock.data b.data || !optPyEq oldBlock.btype b.btype) = true) :
    emitChange old b i aft = [⟨b.id, .modify, b.btype, none⟩] := by
  rw [emitChange, hL]
  simp [hdiff]

/-- The new-sequence pass emits nothing for an id that no new block
carries. -/
theorem diffNewAux_filter_not_mem (old : List Block) (bid : String) :
    ∀ (new : List Block) (i : Nat) (aft : Option String),
      (∀ b ∈ new, b.id ≠ bid) →
      (diffNewAux old new i aft).filter (fun c => c.blockId == bid) = [] := by
  intro new
  induction new with
  | nil => intros; simp [diffNewAux]
  | cons b rest ih =>
    intro i aft hnm
    rw [diffNewAux, List.filter_append,
      emitChange_filter_ne old b i aft bid (hnm b (List.mem_cons_self b rest)),
      ih (i + 1) (some b.id) (fun a ha => hnm a (List.mem_cons_of_mem b ha))]
    rfl

/-- Filtering the new-sequence pass to a changed block's id yields
exactly its single `modify` record, wherever the block sits in the new
sequence. -/
theorem diffNewAux_filter_modify (old : List Block) (bNew : Block) (j : Nat) (oldBlock : Block)
    (hL : idLookup old bNew.id = some (j, oldBlock))
    (hdiff : (!optPyEq oldBlock.data bNew.data || !optPyEq oldBlock.btype bNew.btype) = true)
    (suf : List Block) (hsuf : ∀ a ∈ suf, a.id ≠ bNew.id) :
    ∀ (pre : List Block) (i : Nat) (aft : Option String), (∀ a ∈ pre, a.id ≠ bNew.id) →
      (diffNewAux old (pre ++ bNew :: suf) i aft).filter (fun c => c.blockId == bNew.id) =
        [⟨bNew.id, .modify, bNew.btype, none⟩] := by
  intro pre
  induction pre with
  | nil =>
    intro i aft _
    rw [List.nil_append, diffNewAux, List.filter_append,
      emitChange_modify old bNew i aft j oldBlock hL hdiff,
      diffNewAux_filter_not_mem old bNew.id suf (i + 1) (some bNew.id) hsuf]
    simp
  | cons a pre ih =>
    intro i aft hpre
    rw [List.cons_append, diffNewAux, List.filter_append,
      emitChange_filter_ne old a i aft bNew.id (hpre a (List.mem_cons_self a pre)),
      ih (i + 1) (some a.id) (fun x hx => hpre x (List.mem_cons_of_mem a hx))]
    rfl

/-- The delete pass emits nothing for an id that still occurs in the new
sequence. -/
theorem delete_filter_of_mem (old new : List Block) (bNew : Block) (hbn : bNew ∈ new) :
    ((old.filter (fun b => !(new.any (fun nb => nb.id == b.id)))).map
      (fun b => (⟨b.id, .delete, b.btype, none⟩ : BlockChange))).filter
      (fun c => c.blockId == bNew.id) = [] := by
  rw [List.filter_eq_nil_iff]
  intro c hc
  obtain ⟨b, hb, hcb⟩ := List.mem_map.mp hc
  rw [List.mem_filter] at hb
  rw [← hcb]
  simp only [beq_iff_eq]
  intro heq
  have : new.any (fun nb => nb.id == b.id) = true :=
    List.any_eq_true.mpr ⟨bNew, hbn, by simp [heq]⟩
  rw [this] at hb
  exact absurd hb.2 (by simp)

/-- C4: a block present in both sequences whose `data` or `type` differs
(Python `!=`) is reported exactly once, as `modify` with no
`afterBlockId`, even when its position also changed — content change
takes priority over position change.  Block ids are pairwise distinct, as
in every block list the app produces. -/
theorem diff_blocks_modify_priority (old new : List Block)
    (hold : (old.map Block.id).Nodup) (hnew : (new.map Block.id).Nodup)
    (bOld bNew : Block) (hbo : bOld ∈ old) (hbn : bNew ∈ new) (hid : bOld.id = bNew.id)
    (hdiff : optPyEq bOld.data bNew.data = false ∨ optPyEq bOld.btype bNew.btype = false) :
    (diff_blocks old new).filter (fun c => c.blockId == bNew.id) =
      [⟨bNew.id, .modify, bNew.btype, none⟩] := by
  obtain ⟨pre, suf, rfl⟩ := List.append_of_mem hbn
  obtain ⟨hpre, hsuf⟩ := nodup_key_split Block.id pre suf bNew hnew
  obtain ⟨pre2, suf2, rfl⟩ := List.append_of_mem hbo
  obtain ⟨_, hsuf2⟩ := nodup_key_split Block.id pre2 suf2 bOld hold
  have hL : idLookup (pre2 ++ bOld :: suf2) bNew.id = some (pre2.length, bOld) :=
    idLookup_append pre2 suf2 bOld bNew.id hid (fun a ha => hid ▸ hsuf2 a ha)
  have hdiff2 : (!optPyEq bOld.data bNew.data || !optPyEq bOld.btype bNew.btype) = true := by
    rcases hdiff with h | h <;> simp [h]
  rw [diff_blocks, List.filter_append,
    diffNewAux_filter_modify (pre2 ++ bOld :: suf2) bNew pre2.length bOld hL hdiff2 suf hsuf
      pre 0 none hpre,
    delete_filter_of_mem (pre2 ++ bOld :: suf2) (pre ++ bNew :: suf) bNew
      (by exact List.mem_append_right pre (List.mem_cons_self bNew suf))]
  rfl

/-- Witness for C4: one block whose data changed is reported once, as a
`modify` without `afterBlockId`. -/
theorem diff_blocks_modify_priority_witness :
    (diff_blocks [exOld4] [exNew4]).filter (fun c => c.blockId == exNew4.id) =
      [⟨exNew4.id, .modify, exNew4.btype, none⟩] :=
  diff_blocks_modify_priority [exOld4] [exNew4] (by simp) (by simp)
    exOld4 exNew4 (List.mem_cons_self _ _) (List.mem_cons_self _ _) rfl
    (Or.inl (by simp [exOld4, exNew4, optPyEq, pyEq]))

/-- Members of a well-formed array are well-formed. -/
theorem JsonWFList_mem (xs : List Json) (h : JsonWFList xs = true) (x : Json) (hx : x ∈ xs) :
    JsonWF x = true := by
  induction xs with
  | nil => simp at hx
  | cons a t ih =>
    rw [JsonWFList, Bool.and_eq_true] at h
    rcases List.mem_cons.mp hx with rfl | hx2
    · exact h.1
    · exact ih h.2 hx2

/-- Values of a well-formed object are well-formed. -/
theorem JsonWFObj_mem (kvs : List (String × Json)) (h : JsonWFObj kvs = true)
    (k : String) (v : Json) (hkv : (k, v) ∈ kvs) : JsonWF v = true := by
  induction kvs with
  | nil => simp at hkv
  | cons p t ih =>
    rcases p with ⟨k2, v2⟩
    rw [JsonWFObj, Bool.and_eq_true] at h
    rcases List.mem_cons.mp hkv with heq | hx2
    · rw [show v = v2 from congrArg Prod.snd heq]
      exact h.1
    · exact ih h.2 hx2

/-- Elementwise-reflexive arrays compare equal. -/
theorem pyEqList_of_refl (xs : List Json) (h : ∀ x ∈ xs, pyEq x x = true) :
    pyEqList xs xs = true := by
  induction xs with
  | nil => simp [pyEqList]
  | cons a t ih =>
    rw [pyEqList, Bool.and_eq_true]
    exact ⟨h a (List.mem_cons_self a t), ih (fun x hx => h x (List.mem_cons_of_mem a hx))⟩

/-- Lookup of a key whose first binding is `(k, v)` compares `v` against
itself. -/
theorem pyEqLookup_found (k : String) (v : Json) (hv : pyEq v v = true) :
    ∀ (pre suf : List (String × Json)), (∀ p ∈ pre, p.1 ≠ k) →
      pyEqLookup k v (pre ++ (k, v) :: suf) = true := by
  intro pre
  induction pre with
  | nil =>
    intro suf _
    rw [List.nil_append, pyEqLookup]
    simp [hv]
  | cons p pre ih =>
    intro suf hpre
    rcases p with ⟨k2, v2⟩
    rw [List.cons_append, pyEqLookup]
    rw [if_neg (fun heq => hpre (k2, v2) (List.mem_cons_self _ _) heq.symm)]
    exact ih suf (fun q hq => hpre q (List.mem_cons_of_mem _ hq))

/-- An object whose every binding looks itself up compares equal. -/
theorem pyEqObj_of_forall (part b : List (String × Json))
    (h : ∀ p ∈ part, pyEqLookup p.1 p.2 b = true) : pyEqObj part b = true := by
  induction part with
  | nil => simp [pyEqObj]
  | cons p t ih =>
    rcases p with ⟨k, v⟩
    rw [pyEqObj, Bool.and_eq_true]
    exact ⟨h (k, v) (List.mem_cons_self _ _), ih (fun q hq => h q (List.mem_cons_of_mem _ hq))⟩

/-- Python `==` is reflexive on well-formed JSON values (strong induction
on size; duplicate object keys — impossible in a Python dict — are the
only obstruction). -/
theorem pyEq_refl_sized : ∀ (n : Nat) (j : Json), sizeOf j ≤ n → JsonWF j = true →
    pyEq j j = true := by
  intro n
  induction n with
  | zero =>
    intro j hsz _
    exact absurd hsz (by cases j <;> simp_arith)
  | succ n ih =>
    intro j hsz hwf
    cases j with
    | null => simp [pyEq]
    | bool b => simp [pyEq]
    | num m => simp [pyEq]
    | str s => simp [pyEq]
    | arr xs =>
      rw [pyEq]
      apply pyEqList_of_refl
      intro x hx
      have h1 := List.sizeOf_lt_of_mem hx
      have h2 : sizeOf (Json.arr xs) = 1 + sizeOf xs := by simp
      rw [JsonWF] at hwf
      exact ih x (by omega) (JsonWFList_mem xs hwf x hx)
    | obj kvs =>
      rw [pyEq]
      rw [JsonWF, Bool.and_eq_true] at hwf
      obtain ⟨hnd, hvals⟩ := hwf
      have hnd2 : (kvs.map Prod.fst).Nodup := of_decide_eq_true hnd
      rw [Bool.and_eq_true]
      refine ⟨by simp, ?_⟩
      apply pyEqObj_of_forall
      intro p hp
      rcases p with ⟨k, v⟩
      have hsz1 := List.sizeOf_lt_of_mem hp
      have hsz2 : sizeOf ((k, v) : String × Json) = 1 + sizeOf k + sizeOf v := by simp
      have hsz3 : sizeOf (Json.obj kvs) = 1 + sizeOf kvs := by simp
      have hv : pyEq v v = true :=
        ih v (by omega) (JsonWFObj_mem kvs hvals k v hp)
      obtain ⟨pre, suf, heq⟩ := List.append_of_mem hp
      have hpre := (nodup_key_split Prod.fst pre suf (k, v) (heq ▸ hnd2)).1
      rw [heq]
      exact pyEqLookup_found k v hv pre suf hpre

/-- Python `==` is reflexive on well-formed JSON values. -/
theorem pyEq_refl (j : Json) (h : JsonWF j = true) : pyEq j j = true :=
  pyEq_refl_sized (sizeOf j) j le_rfl h

/-- Reflexivity for `.get` results. -/
theorem optPyEq_refl (o : Option Json) (h : optWF o = true) : optPyEq o o = true := by
  cases o with
  | none => rfl
  | some j =>
    rw [optWF] at h
    simp [optPyEq, pyEq_refl j h]

/-- Diffing a well-formed block list against itself emits nothing in the
new-sequence pass: every block is found at its own index, unchanged. -/
theorem diffNewAux_self (l : List Block) (hnodup : (l.map Block.id).Nodup)
    (hwf : ∀ b ∈ l, optWF b.btype = true ∧ optWF b.data = true) :
    ∀ (suf pre : List Block) (aft : Option String), l = pre ++ suf →
      diffNewAux l suf pre.length aft = [] := by
  intro suf
  induction suf with
  | nil => intros; rfl
  | cons b rest ih =>
    intro pre aft hl
    rw [diffNewAux]
    have hbl : b ∈ l := by
      rw [hl]; exact List.mem_append_right pre (List.mem_cons_self b rest)
    have hsplit := nodup_key_split Block.id pre rest b (by rw [← hl]; exact hnodup)
    have hL : idLookup l b.id = some (pre.length, b) := by
      rw [hl]; exact idLookup_append pre rest b b.id rfl hsplit.2
    have hwfb := hwf b hbl
    have hemit : emitChange l b pre.length aft = [] := by
      rw [emitChange, hL]
      simp [optPyEq_refl _ hwfb.1, optPyEq_refl _ hwfb.2]
    rw [hemit]
    have := ih (pre ++ [b]) (some b.id) (by rw [hl, List.append_assoc]; rfl)
    simpa using this

/-- Diffing a well-formed block list against itself yields no changes. -/
theorem diff_blocks_self (l : List Block) (hnodup : (l.map Block.id).Nodup)
    (hwf : ∀ b ∈ l, optWF b.btype = true ∧ optWF b.data = true) :
    diff_blocks l l = [] := by
  rw [diff_blocks]
  have h1 : diffNewAux l l 0 none = [] := by
    simpa using diffNewAux_self l hnodup hwf l [] none rfl
  have h2 : l.filter (fun b => !(l.any (fun nb => nb.id == b.id))) = [] := by
    rw [List.filter_eq_nil_iff]
    intro b hb
    simp
    exact ⟨b, hb, rfl⟩
  rw [h1, h2]
  rfl

/-- C6 (amended): updating an existing, in-sync page (the journal's last
entry carries the hash of the stored content, as every writer-produced
state does) with content **identical** to the current content — same key
insertion order, hence same serialisation — appends exactly one entry
whose `contentHash` equals the previous entry's `contentHash` and whose
`blockChanges` is empty.  Block ids are pairwise distinct and block
payloads are well-formed dicts, as in every state the writers produce.
(For content merely structurally equal with different key order the
hashes differ — see the counterexample.) -/
theorem update_page_idempotent (s : PageState) (prev : OplogEntry) (now ts clientId : String)
    (hlast : s.oplog.getLast? = some prev)
    (hsync : prev.contentHash = content_hash s.page.content)
    (hnodup : ((blocksOf s.page.content).map Block.id).Nodup)
    (hwf : ∀ b ∈ blocksOf s.page.content, optWF b.btype = true ∧ optWF b.data = true) :
    ∃ e, (update_page s (some s.page.content) none none now ts clientId).oplog =
        s.oplog ++ [e] ∧ e.contentHash = prev.contentHash ∧ e.blockChanges = [] ∧
        e.prevHash = prev.contentHash := by
  apply Exists.intro (OplogEntry.mk ts clientId "modify" (content_hash s.page.content)
    (read_last_hash s.oplog) [] (contentBlocks s.page.content).length)
  refine ⟨?_, ?_, ?_, ?_⟩
  · simp only [update_page, append_oplog, Option.getD_some]
    rw [diff_blocks_self _ hnodup hwf]
  · exact hsync.symm
  · rfl
  · show read_last_hash s.oplog = prev.contentHash
    rw [read_last_hash_spec, hlast]
    rfl

/-- Witness for C6: a freshly created one-block page updated with its
own stored content appends one entry with the same hash and empty
`blockChanges`. -/
theorem update_page_idempotent_witness :
    ∃ e, (update_page exState6 (some exState6.page.content) none none
        "now1" "ts1" "agent").oplog = exState6.oplog ++ [e] ∧
      e.contentHash = exPrev6.contentHash ∧ e.blockChanges = [] ∧
      e.prevHash = exPrev6.contentHash :=
  update_page_idempotent exState6 exPrev6 "now1" "ts1" "agent" rfl rfl (by decide)
    (by
      intro b hb
      have hred : blocksOf exState6.page.content = [exBlock6] := rfl
      rw [hred] at hb
      rw [List.mem_singleton.mp hb]
      constructor <;> simp [exBlock6, optWF, JsonWF, JsonWFList, JsonWFObj])

/-- Counterexample for C6 as stated: updating with content merely
**structurally** equal (Python `==`) to the stored content — same keys
and values, different insertion order — appends an entry whose
`contentHash` differs from the previous entry's, because `_content_hash`
serialises keys in insertion order. -/
theorem update_structural_content_hash_differs :
    pyEq exContentB exState6c.page.content = true ∧
    exState6c'.oplog.length = 2 ∧
    (exState6c'.oplog.map OplogEntry.contentHash).head? ≠
      (exState6c'.oplog.map OplogEntry.contentHash).getLast? := by
  refine ⟨?_, rfl, ?_⟩
  · have h : exState6c.page.content = exContentA := rfl
    rw [h]
    simp [exContentB, exContentA, pyEq, pyEqObj, pyEqLookup, pyEqList]
  · have hhead : (exState6c'.oplog.map OplogEntry.contentHash).head? =
        some (content_hash exContentA) := rfl
    have hlast2 : (exState6c'.oplog.map OplogEntry.contentHash).getLast? =
        some (content_hash exContentB) := rfl
    rw [hhead, hlast2, content_hash_exContentA_val, content_hash_exContentB_val]
    decide
